import Mathlib

/-!
Verification of the ENAAS configuration review tool (`src/review-script.py`)
against its natural-language specification.

The development is a shallow embedding: each Python function relevant to the
claims is translated into an executable Lean definition over `List Char` /
`String` / association lists (Python `dict`s have unique keys; they are
modelled as association lists and indexed with a first-match lookup), and the
claims are settled as theorems about those definitions.
-/

set_option maxHeartbeats 1000000

/-- Embeds the Python dataclass `FileError`
(file_name, line_number, char_position, description). -/
structure FileError where
  file_name : String
  line_number : Nat
  char_position : Nat
  description : String
deriving DecidableEq

/-- Embeds the Python dataclass `SecretKeyError`
(file_name, line_number, char_position, secret_name, secret_key, description). -/
structure SecretKeyError where
  file_name : String
  line_number : Nat
  char_position : Nat
  secret_name : String
  secret_key : String
  description : String
deriving DecidableEq

/-- Embeds the Python dataclass `ReviewResult`. -/
structure ReviewResult where
  file_errors : List FileError
  secret_key_errors : List SecretKeyError
  placeholder_count : Nat
  secret_ref_match : Bool
  secret_ref_names : String × String
deriving DecidableEq

/-- Embeds `ReviewResult.has_errors`:
`len(self.file_errors) > 0 or len(self.secret_key_errors) > 0`. -/
def ReviewResult.has_errors (r : ReviewResult) : Bool :=
  decide (0 < r.file_errors.length) || decide (0 < r.secret_key_errors.length)

/-- Embeds the test `len(sys.argv) >= 2 and sys.argv[1] == "review openshift manifest"`
that selects the automatic-scan (batch) mode in `main`. -/
def isBatchMode (argv : List String) : Bool :=
  decide (2 ≤ argv.length) && (argv[1]? == some "review openshift manifest")

/-- Embeds the exit code of `main`.  In batch mode `main` calls
`run_batch_review` and then returns, so the process terminates normally with
exit code 0; the batch results (`batchResults`) are never consulted.  With a
wrong argument count `main` calls `sys.exit(1)`.  In the explicit three-path
mode `main` calls `sys.exit(0 if not result.has_errors else 1)` on the result
of `run_review` (`explicitResult`). -/
def mainExitCode (argv : List String) (batchResults : List ReviewResult)
    (explicitResult : ReviewResult) : Nat :=
  if isBatchMode argv then 0
  else if argv.length < 3 ∨ 4 < argv.length then 1
  else if explicitResult.has_errors then 1 else 0

/-- A `ReviewResult` carrying one `FileError`, as produced by a run that found
a single defect. -/
def defectiveResult : ReviewResult :=
  { file_errors := [⟨"f.yml", 1, 1, "使用了Tab缩进，应该使用空格"⟩]
    secret_key_errors := []
    placeholder_count := 0
    secret_ref_match := false
    secret_ref_names := ("", "") }

/-- A `ReviewResult` with no defects at all. -/
def cleanResult : ReviewResult := ⟨[], [], 0, false, ("", "")⟩

/-- First index at which `need` occurs as a contiguous sublist of `hay`
(Python `str.find`), or `none` when it does not occur. -/
def findSub : List Char → List Char → Option Nat
  | [], need => if need.isEmpty then some 0 else none
  | c :: rest, need =>
    if need.isPrefixOf (c :: rest) then some 0
    else (findSub rest need).map (· + 1)

/-- `need` occurs in `hay` starting at index `q`. -/
def occursAt (need hay : List Char) (q : Nat) : Bool :=
  need.isPrefixOf (hay.drop q)

/-- Helper for `countSub`: while `skip > 0` the current character belongs to a
previously counted occurrence and is passed over, matching Python's
non-overlapping `str.count`. -/
def countSubAux (need : List Char) : List Char → Nat → Nat
  | [], _ => 0
  | _ :: rest, skip + 1 => countSubAux need rest skip
  | c :: rest, 0 =>
    if need.isPrefixOf (c :: rest) then 1 + countSubAux need rest (need.length - 1)
    else countSubAux need rest 0

/-- Number of non-overlapping occurrences of `need` in `hay`
(Python `hay.count(need)`). -/
def countSub (hay need : List Char) : Nat := countSubAux need hay 0

/-- Splits a character list at newline characters, keeping empty pieces
(Python `content.split('\n')`); the result is never empty and its elements
contain no newline. -/
def splitLines : List Char → List (List Char)
  | [] => [[]]
  | c :: rest =>
    match splitLines rest with
    | [] => [[]]
    | l :: ls => if c = '\n' then [] :: l :: ls else (c :: l) :: ls

/-- The fixed placeholder marker token `<ENAAS_PLACEHOLDER>`. -/
def markerChars : List Char := "<ENAAS_PLACEHOLDER>".data

/-- State machine underlying `_extract_placeholders`, i.e.
`re.findall(r'<ENAAS_PLACEHOLDER>(.*?)<ENAAS_PLACEHOLDER>', content)`.
`re.findall` scans left to right; `.` does not match a newline, and the
marker token contains neither a newline nor a nested occurrence of its own
first character pattern, so the non-greedy leftmost-match semantics pair each
marker with the next marker occurrence on the same line.  The scanner is
outside a span (`st = none`) until a marker is recognised, then accumulates
span content (`st = some acc`) until the closing marker, emitting `acc`; a
newline reached while inside a span discards the pending content, because no
regex match may contain a newline and the next marker then acts as a fresh
opening marker.  `skip` passes over the remaining characters of a recognised
marker token. -/
def extractAux : List Char → Nat → Option (List Char) → List (List Char)
  | [], _, _ => []
  | _ :: rest, skip + 1, st => extractAux rest skip st
  | c :: rest, 0, st =>
    if markerChars.isPrefixOf (c :: rest) then
      match st with
      | none => extractAux rest (markerChars.length - 1) (some [])
      | some acc => acc :: extractAux rest (markerChars.length - 1) none
    else
      match st with
      | none => extractAux rest 0 none
      | some acc =>
        if c = '\n' then extractAux rest 0 none
        else extractAux rest 0 (some (acc ++ [c]))

/-- Embeds `_extract_placeholders`: the ordered list of placeholder contents
of the raw manifest text. -/
def extract_placeholders (content : String) : List String :=
  (extractAux content.data 0 none).map fun cs => String.mk cs

/-- Per-line loop of `_check_placeholder_tags`, with `n` the 1-based number of
the first line of `ls` (Python `enumerate(lines, 1)`). -/
def checkTagsLines (fileName : String) : List (List Char) → Nat → List SecretKeyError
  | [], _ => []
  | line :: rest, n =>
    (if 0 < countSub line markerChars ∧ countSub line markerChars % 2 ≠ 0 then
      [⟨fileName, n, (findSub line markerChars).getD 0 + 1, "", "",
        "ENAAS_PLACEHOLDER标签不成对"⟩]
    else [])
    ++ checkTagsLines fileName rest (n + 1)

/-- Embeds `_check_placeholder_tags`: the marker-parity check over the raw
manifest text (the placeholder list Python also receives is unused there). -/
def check_placeholder_tags (fileName : String) (content : String) : List SecretKeyError :=
  checkTagsLines fileName (splitLines content.data) 1

/-- Shape of the registry's `keys` and `encodedKeys` members: application
name → secret-group name → list of key names (nested Python dicts of lists,
modelled as association lists with unique keys). -/
abbrev KeysMap := List (String × List (String × List String))

/-- Shape of the registry's `autoKeys` member: application name → template
name → list of values. -/
abbrev AutoMap := List (String × List (String × List String))

/-- First-match association-list lookup: the model of Python `dict` indexing
(`d[k]`) and key membership (`k in d`).  Python dict keys are unique, so the
first match is the only match. -/
def lookupA {α : Type} : List (String × α) → String → Option α
  | [], _ => none
  | (k, v) :: rest, key => if k = key then some v else lookupA rest key

/-- Python `placeholder.split('_', 1)`: splits at the first underscore,
`none` when the string holds no underscore (`'_' not in placeholder`). -/
def splitFirstUnderscore : List Char → Option (List Char × List Char)
  | [] => none
  | c :: rest =>
    if c = '_' then some ([], rest)
    else (splitFirstUnderscore rest).map fun pr => (c :: pr.1, pr.2)

/-- Embeds `_is_valid_keys_placeholder`: the `{secretGroup}_{keyName}` form,
checked across all applications of the registry's `keys`. -/
def is_valid_keys_placeholder (keys : KeysMap) (placeholder : String) : Bool :=
  match splitFirstUnderscore placeholder.data with
  | none => false
  | some (g, k) =>
    keys.any fun app =>
      match lookupA app.2 (String.mk g) with
      | some ks => ks.contains (String.mk k)
      | none => false

/-- Embeds `_is_valid_auto_keys_placeholder`: the `{templateName}_{value}`
form, checked across all applications of the registry's `autoKeys`. -/
def is_valid_auto_keys_placeholder (autoKeys : AutoMap) (placeholder : String) : Bool :=
  autoKeys.any fun app =>
    app.2.any fun tv =>
      tv.2.any fun v => placeholder == tv.1 ++ "_" ++ v

/-- Embeds `_validate_placeholder_content`. -/
def validate_placeholder_content (keys : KeysMap) (autoKeys : AutoMap)
    (placeholder : String) : Bool :=
  is_valid_keys_placeholder keys placeholder
    || is_valid_auto_keys_placeholder autoKeys placeholder

/-- Per-line loop of `_find_placeholder_position` (Python
`enumerate(lines, 1)` and `placeholder in line` / `line.find(placeholder)`). -/
def findPosLines (p : List Char) : List (List Char) → Nat → Nat × Nat
  | [], _ => (1, 1)
  | line :: rest, n =>
    match findSub line p with
    | some j => (n, j + 1)
    | none => findPosLines p rest (n + 1)

/-- Embeds `_find_placeholder_position`: the first line and column at which
the content substring occurs anywhere in the file, `(1, 1)` when absent. -/
def find_placeholder_position (placeholder content : String) : Nat × Nat :=
  findPosLines placeholder.data (splitLines content.data) 1

/-- Embeds `_check_placeholder_content_matching`: extracts the placeholders
of the raw manifest text and reports one `SecretKeyError` for each content
string rejected by `_validate_placeholder_content`, with the placeholder
content as the `secret_key` field and an empty `secret_name` field. -/
def check_placeholder_content_matching (keys : KeysMap) (autoKeys : AutoMap)
    (fileName content : String) : List SecretKeyError :=
  (extract_placeholders content).filterMap fun p =>
    if validate_placeholder_content keys autoKeys p then none
    else some ⟨fileName, (find_placeholder_position p content).1,
      (find_placeholder_position p content).2, "", p, "在enaas.json中未找到对应的配置"⟩

/-- The claim's acceptance condition, stated from the spec's words: either
splitting the string at its first underscore gives `(secretGroup, keyName)`
with `keyName` listed under `secretGroup` under some application of `keys`
(a first-underscore split is exactly a decomposition `g ++ '_' :: k` with an
underscore-free `g`), or the string equals `{templateName}_{value}` for some
template/value pair under some application's `autoKeys`. -/
def SpecPlaceholderValid (keys : KeysMap) (autoKeys : AutoMap) (p : String) : Prop :=
  (∃ g k, p.data = g ++ '_' :: k ∧ '_' ∉ g ∧
    ∃ app ∈ keys, ∃ e ∈ app.2, e.1 = String.mk g ∧ String.mk k ∈ e.2)
  ∨ (∃ app ∈ autoKeys, ∃ tv ∈ app.2, ∃ v ∈ tv.2, p = tv.1 ++ "_" ++ v)

/-- A small concrete registry `keys` member. -/
def sampleKeys : KeysMap := [("myapp", [("db", ["password"])])]

/-- A small concrete registry `autoKeys` member. -/
def sampleAutoKeys : AutoMap := [("myapp", [("apiVersion", ["v2"])])]

/-- One console-reported failure of `_check_encoded_keys_consistency`:
`missingApp a` models the message `encodedKeys中的应用 … 在keys中不存在`
(parameterised by the application name), `missingGroup g` models
`encodedKeys中的secret … 在keys中不存在` (the message names only the
secret-group), and `missingKey k a g` models
`encodedKeys中的key … 在keys.….…中不存在` (key, application and group). -/
inductive EncodedIssue where
  | missingApp (app : String)
  | missingGroup (group : String)
  | missingKey (key app group : String)
deriving DecidableEq

/-- Inner loop of `_check_encoded_keys_consistency` over one secret-group
entry `gk` of `encodedKeys[a]`: if the group is absent from `keys[a]`
(`appKeys`) one failure is reported and the loop `continue`s; otherwise each
encoded key absent from `keys[a][group]` is reported. -/
def encodedIssuesOfGroup (appKeys : List (String × List String)) (a : String)
    (gk : String × List String) : List EncodedIssue :=
  match lookupA appKeys gk.1 with
  | none => [.missingGroup gk.1]
  | some gks =>
    gk.2.filterMap fun k =>
      if gks.contains k then none else some (.missingKey k a gk.1)

/-- Outer loop of `_check_encoded_keys_consistency` over one application
entry `ag` of `encodedKeys`: if the application is absent from `keys` one
failure is reported and the loop `continue`s with the sibling applications;
otherwise its groups are checked. -/
def encodedIssuesOfApp (keys : KeysMap) (ag : String × List (String × List String)) :
    List EncodedIssue :=
  match lookupA keys ag.1 with
  | none => [.missingApp ag.1]
  | some appKeys => ag.2.flatMap (encodedIssuesOfGroup appKeys ag.1)

/-- Embeds `_check_encoded_keys_consistency`: for every (application,
secret-group, key) triple declared in `encodedKeys`, checks that the
application exists in `keys`, the secret-group under that application and the
key under that secret-group; each missing link is reported independently. -/
def check_encoded_keys_consistency (keys encoded : KeysMap) : List EncodedIssue :=
  encoded.flatMap (encodedIssuesOfApp keys)

/-- Parsed YAML document values as loaded by `yaml.safe_load`, restricted to
string scalars, sequences and string-keyed mappings — the shapes these
configuration files use. -/
inductive Yaml where
  | scalar (s : String)
  | seq (items : List Yaml)
  | map (entries : List (String × Yaml))

/-- First-match lookup in a parsed mapping (Python `dict` indexing and
membership; dict keys are unique). -/
def lookupY : List (String × Yaml) → String → Option Yaml
  | [], _ => none
  | (k, v) :: rest, key => if k = key then some v else lookupY rest key

/-- Python truthiness of a loaded value (`if not self.dc_data`): empty
strings, sequences and mappings are falsy. -/
def yamlTruthy : Yaml → Bool
  | .scalar s => s != ""
  | .seq items => !items.isEmpty
  | .map entries => !entries.isEmpty

/-- Embeds `_get_secret_name`: resolves `metadata.name` of the parsed
manifest.  All Python paths that end with the reference check recording
nothing — missing `metadata`, a non-mapping `metadata` (whose `.get` raises
and is swallowed by the caller's `except`), a missing `name` — are collapsed
to `none`; a resolved name is returned as its string value (the manifest
schema declares `metadata.name` a string). -/
def get_secret_name (secretData : Yaml) : Option String :=
  match secretData with
  | .map entries =>
    match lookupY entries "metadata" with
    | some (.map m) =>
      match lookupY m "name" with
      | some (.scalar s) => some s
      | _ => none
    | _ => none
  | _ => none

mutual
/-- Embeds `_find_secret_refs`, recursing over the heterogeneous parsed
tree: a mapping entry whose key is `secretRef` and whose value is a mapping
containing `name` records `(name value, path)` and is not recursed into;
every other mapping value and every sequence element is visited, building
the dotted/bracket-indexed diagnostic path. -/
def find_secret_refs : Yaml → String → List (Yaml × String)
  | .scalar _, _ => []
  | .map entries, path => findRefsEntries entries path
  | .seq items, path => findRefsSeq items path 0
/-- Loop of `_find_secret_refs` over the entries of a mapping node. -/
def findRefsEntries : List (String × Yaml) → String → List (Yaml × String)
  | [], _ => []
  | (k, v) :: rest, path =>
    (let currentPath := if path = "" then k else path ++ "." ++ k
     match v with
     | .map m =>
       if k = "secretRef" then
         match lookupY m "name" with
         | some n => [(n, currentPath)]
         | none => find_secret_refs v currentPath
       else find_secret_refs v currentPath
     | _ => find_secret_refs v currentPath)
    ++ findRefsEntries rest path
/-- Loop of `_find_secret_refs` over the elements of a sequence node
(`enumerate`). -/
def findRefsSeq : List Yaml → String → Nat → List (Yaml × String)
  | [], _, _ => []
  | item :: rest, path, i =>
    find_secret_refs item (path ++ "[" ++ toString i ++ "]")
      ++ findRefsSeq rest path (i + 1)
end

/-- One reference comparison `ref_name == secret_name`: Python equality of a
loaded reference name against the string manifest identity (a non-string
reference name compares unequal to a string). -/
def yamlEqScalar (y : Yaml) (s : String) : Bool :=
  match y with
  | .scalar t => t == s
  | _ => false

/-- Python `", ".join(ref_names)` needs every collected reference name to be
a string; a non-string raises `TypeError`, swallowed by the caller's
`except` before anything is recorded.  `none` models that failure path. -/
def scalarStrings : List Yaml → Option (List String)
  | [] => some []
  | .scalar s :: rest => (scalarStrings rest).map fun ss => s :: ss
  | _ :: _ => none

/-- Embeds `_check_secret_reference_validity` acting on the result record
`init`: every abort path (falsy loaded documents, unresolved or empty
identity, no references found, `TypeError` during the join) leaves the
result untouched; otherwise the pair (identity, comma-joined reference
names) and the all-or-nothing match boolean are recorded.  No `FileError` or
`SecretKeyError` is ever appended by this check. -/
def check_secret_reference_validity (secretData dcData : Yaml)
    (init : ReviewResult) : ReviewResult :=
  if !(yamlTruthy dcData) || !(yamlTruthy secretData) then init
  else
    match get_secret_name secretData with
    | none => init
    | some s =>
      if s = "" then init
      else
        let refs := find_secret_refs dcData ""
        if refs.isEmpty then init
        else
          match scalarStrings (refs.map Prod.fst) with
          | none => init
          | some ss =>
            { init with
              secret_ref_names := (s, ", ".intercalate ss)
              secret_ref_match := (refs.map Prod.fst).all fun y => yamlEqScalar y s }

/-- A parsed manifest whose `metadata.name` is `app`. -/
def sampleSecretData : Yaml := .map [("metadata", .map [("name", .scalar "app")])]

/-- A parsed descriptor with two `secretRef.name` occurrences equal to
`app`. -/
def sampleMatchDc : Yaml :=
  .map [("a", .map [("secretRef", .map [("name", .scalar "app")])]),
        ("b", .map [("secretRef", .map [("name", .scalar "app")])])]

/-- A parsed descriptor with one `secretRef.name` different from `app`. -/
def sampleMismatchDc : Yaml :=
  .map [("secretRef", .map [("name", .scalar "other")])]

/-- Whitespace characters recognised by Python `str.strip`/`str.lstrip`
(ASCII range; these configuration files are ASCII text). -/
def isPySpace (c : Char) : Bool :=
  c == ' ' || c == '\t' || c == '\n' || c == '\r' || c == '\x0b' || c == '\x0c'

/-- Truthiness of `line.strip()`: non-blank iff some character is not
whitespace. -/
def hasNonWs (line : List Char) : Bool := line.any fun c => !(isPySpace c)

/-- Python `line.startswith('#')`. -/
def startsWithHash : List Char → Bool
  | [] => false
  | c :: _ => c == '#'

/-- The tab-indentation defect message of `_validate_yaml_indentation`. -/
def tabMsg : String := "使用了Tab缩进，应该使用空格"

/-- The odd-indentation defect message of `_validate_yaml_indentation`
(f-string over the indent width). -/
def indentMsg (indent : Nat) : String :=
  "缩进不是2的倍数 (" ++ toString indent ++ " 空格)"

/-- Per-line loop of `_validate_yaml_indentation` (`enumerate(lines, 1)`):
for every line whose `strip()` is non-empty and that does not start with
`#`, a tab character anywhere in the line (`'\t' in line`) yields one defect
at the first tab's column, and a leading-whitespace run
(`len(line) - len(line.lstrip())`) of positive length not a multiple of two
yields one further defect at column indent+1. -/
def checkIndentLines (fileName : String) : List (List Char) → Nat → List FileError
  | [], _ => []
  | line :: rest, n =>
    (if hasNonWs line && !startsWithHash line then
      (if line.contains '\t' then
        [⟨fileName, n, line.findIdx (fun c => c == '\t') + 1, tabMsg⟩]
      else [])
      ++ (if (line.takeWhile isPySpace).length % 2 ≠ 0 ∧
            0 < (line.takeWhile isPySpace).length then
          [⟨fileName, n, (line.takeWhile isPySpace).length + 1,
            indentMsg (line.takeWhile isPySpace).length⟩]
        else [])
    else [])
    ++ checkIndentLines fileName rest (n + 1)

/-- Embeds `_validate_yaml_indentation` on the file's raw text.  Python reads
the lines with `readlines()` (keeping trailing newlines); a trailing newline
affects none of the per-line checks, so the text is split at newlines. -/
def validate_yaml_indentation (fileName content : String) : List FileError :=
  checkIndentLines fileName (splitLines content.data) 1

/-- Per-line scan following the claim's words instead of the code: only a
tab before the first non-whitespace character (i.e. inside the leading
whitespace) is a defect, at that exact column, and only a run of leading
SPACES of positive length not a multiple of two is a defect, at column
run-length + 1. -/
def specIndentLines (fileName : String) : List (List Char) → Nat → List FileError
  | [], _ => []
  | line :: rest, n =>
    (if hasNonWs line && !startsWithHash line then
      (if (line.takeWhile isPySpace).contains '\t' then
        [⟨fileName, n, line.findIdx (fun c => c == '\t') + 1, tabMsg⟩]
      else [])
      ++ (if (line.takeWhile fun c => c == ' ').length % 2 ≠ 0 ∧
            0 < (line.takeWhile fun c => c == ' ').length then
          [⟨fileName, n, (line.takeWhile fun c => c == ' ').length + 1,
            indentMsg (line.takeWhile fun c => c == ' ').length⟩]
        else [])
    else [])
    ++ specIndentLines fileName rest (n + 1)

/-- The indentation defects the claim describes (spec-side definition, used
to exhibit the divergence from the code). -/
def specIndentationDefects (fileName content : String) : List FileError :=
  specIndentLines fileName (splitLines content.data) 1

/-- A parsed JSON value (subset: plain strings without escape sequences,
integer numbers), as produced by Python `json.loads` on these registry
files. -/
inductive Json where
  | null
  | bool (b : Bool)
  | num (n : Int)
  | str (s : String)
  | arr (elems : List Json)
  | obj (fields : List (String × Json))

/-- A JSON parse failure: CPython's `JSONDecodeError` message (`e.msg`) and
character offset (`e.pos`). -/
structure JsonErr where
  msg : String
  pos : Nat
deriving DecidableEq

/-- JSON whitespace skipped by the decoder (space, tab, newline, carriage
return). -/
def isJsonWs (c : Char) : Bool := c == ' ' || c == '\t' || c == '\n' || c == '\r'

/-- Skips JSON whitespace, advancing the character offset. -/
def skipWsJ : List Char → Nat → List Char × Nat
  | [], p => ([], p)
  | c :: rest, p => if isJsonWs c then skipWsJ rest (p + 1) else (c :: rest, p)

/-- Reads a JSON string body after the opening quote (no escape-sequence
support; these registry files use plain strings); `none` on an unterminated
string. -/
def parseStrBody : List Char → Nat → Option (String × List Char × Nat)
  | [], _ => none
  | c :: rest, p =>
    if c = '"' then some ("", rest, p + 1)
    else
      match parseStrBody rest (p + 1) with
      | some (s, r, q) => some (String.mk (c :: s.data), r, q)
      | none => none

/-- Reads a run of decimal digits into an accumulator. -/
def parseDigits : List Char → Nat → Nat → Nat × List Char × Nat
  | [], acc, p => (acc, [], p)
  | c :: rest, acc, p =>
    if c.isDigit then parseDigits rest (acc * 10 + (c.toNat - 48)) (p + 1)
    else (acc, c :: rest, p)

mutual
/-- Recursive-descent JSON value scanner mirroring CPython's `scan_once`,
with explicit fuel (any fuel above the input length is never exhausted); on
input that starts with no value it fails with `Expecting value` at the
current offset, exactly like CPython. -/
def parseValue : Nat → List Char → Nat → Except JsonErr (Json × List Char × Nat)
  | 0, _, p => .error ⟨"Expecting value", p⟩
  | fuel + 1, cs, p =>
    if ['n', 'u', 'l', 'l'].isPrefixOf cs then .ok (.null, cs.drop 4, p + 4)
    else if ['t', 'r', 'u', 'e'].isPrefixOf cs then .ok (.bool true, cs.drop 4, p + 4)
    else if ['f', 'a', 'l', 's', 'e'].isPrefixOf cs then
      .ok (.bool false, cs.drop 5, p + 5)
    else
      match cs with
      | [] => .error ⟨"Expecting value", p⟩
      | c :: rest =>
        if c = '"' then
          match parseStrBody rest (p + 1) with
          | some (s, r, q) => .ok (.str s, r, q)
          | none => .error ⟨"Unterminated string starting at", p⟩
        else if c = '\x7b' then parseObjBody fuel rest (p + 1)
        else if c = '[' then parseArrBody fuel rest (p + 1)
        else if c = '-' then
          match rest with
          | d :: _ =>
            if d.isDigit then
              let t := parseDigits rest 0 (p + 1)
              .ok (.num (-(t.1 : Int)), t.2.1, t.2.2)
            else .error ⟨"Expecting value", p⟩
          | [] => .error ⟨"Expecting value", p⟩
        else if c.isDigit then
          let t := parseDigits cs 0 p
          .ok (.num (t.1 : Int), t.2.1, t.2.2)
        else .error ⟨"Expecting value", p⟩
/-- Array scanner after the opening bracket. -/
def parseArrBody : Nat → List Char → Nat → Except JsonErr (Json × List Char × Nat)
  | 0, _, p => .error ⟨"Expecting value", p⟩
  | fuel + 1, cs, p =>
    match skipWsJ cs p with
    | (']' :: r, p1) => .ok (.arr [], r, p1 + 1)
    | (cs1, p1) =>
      match parseValue fuel cs1 p1 with
      | .error e => .error e
      | .ok (v, r, q) => parseArrRest fuel [v] r q
/-- Array continuation loop (`, value` or the closing bracket). -/
def parseArrRest : Nat → List Json → List Char → Nat →
    Except JsonErr (Json × List Char × Nat)
  | 0, _, _, p => .error ⟨"Expecting value", p⟩
  | fuel + 1, acc, cs, p =>
    match skipWsJ cs p with
    | (']' :: r, p1) => .ok (.arr acc.reverse, r, p1 + 1)
    | (',' :: r, p1) =>
      match skipWsJ r (p1 + 1) with
      | (cs2, p2) =>
        match parseValue fuel cs2 p2 with
        | .error e => .error e
        | .ok (v, r2, q) => parseArrRest fuel (v :: acc) r2 q
    | (_, p1) => .error ⟨"Expecting ',' delimiter", p1⟩
/-- Object scanner after the opening brace. -/
def parseObjBody : Nat → List Char → Nat → Except JsonErr (Json × List Char × Nat)
  | 0, _, p => .error ⟨"Expecting value", p⟩
  | fuel + 1, cs, p =>
    match skipWsJ cs p with
    | ('\x7d' :: r, p1) => .ok (.obj [], r, p1 + 1)
    | ('"' :: r, p1) =>
      match parseStrBody r (p1 + 1) with
      | none => .error ⟨"Unterminated string starting at", p1⟩
      | some (key, r1, q1) =>
        match skipWsJ r1 q1 with
        | (':' :: r2, p2) =>
          match skipWsJ r2 (p2 + 1) with
          | (cs3, p3) =>
            match parseValue fuel cs3 p3 with
            | .error e => .error e
            | .ok (v, r3, q3) => parseObjRest fuel [(key, v)] r3 q3
        | (_, p2) => .error ⟨"Expecting ':' delimiter", p2⟩
    | (_, p1) => .error ⟨"Expecting property name enclosed in double quotes", p1⟩
/-- Object continuation loop (`, "key": value` or the closing brace). -/
def parseObjRest : Nat → List (String × Json) → List Char → Nat →
    Except JsonErr (Json × List Char × Nat)
  | 0, _, _, p => .error ⟨"Expecting value", p⟩
  | fuel + 1, acc, cs, p =>
    match skipWsJ cs p with
    | ('\x7d' :: r, p1) => .ok (.obj acc.reverse, r, p1 + 1)
    | (',' :: r, p1) =>
      match skipWsJ r (p1 + 1) with
      | ('"' :: r2, p2) =>
        match parseStrBody r2 (p2 + 1) with
        | none => .error ⟨"Unterminated string starting at", p2⟩
        | some (key, r3, q3) =>
          match skipWsJ r3 q3 with
          | (':' :: r4, p4) =>
            match skipWsJ r4 (p4 + 1) with
            | (cs5, p5) =>
              match parseValue fuel cs5 p5 with
              | .error e => .error e
              | .ok (v, r5, q5) => parseObjRest fuel ((key, v) :: acc) r5 q5
          | (_, p4) => .error ⟨"Expecting ':' delimiter", p4⟩
      | (_, p2) => .error ⟨"Expecting property name enclosed in double quotes", p2⟩
    | (_, p1) => .error ⟨"Expecting ',' delimiter", p1⟩
end

/-- Models Python `json.loads`: skip leading whitespace, scan one value,
require only trailing whitespace.  On empty (or all-whitespace) input it
fails with `Expecting value` at the offset past the leading whitespace,
exactly like CPython. -/
def jsonLoads (content : String) : Except JsonErr Json :=
  match skipWsJ content.data 0 with
  | (cs, p) =>
    match parseValue (content.data.length + 1) cs p with
    | .error e => .error e
    | .ok (v, r, q) =>
      match skipWsJ r q with
      | (r2, q2) => if r2.isEmpty then .ok v else .error ⟨"Extra data", q2⟩

/-- Embeds `_calculate_json_error_position`: counts the lines of
`content[:pos]` (line = count, column = length of the last line + 1); when
`pos` is at or past end-of-content it reports (1, 1). -/
def calculate_json_error_position (content : String) (pos : Nat) : Nat × Nat :=
  if pos ≥ content.data.length then (1, 1)
  else
    (( splitLines (content.data.take pos)).length,
      ((splitLines (content.data.take pos)).getLastD []).length + 1)

/-- Embeds `_validate_json_file`: attempts `json.loads` on the full file
content — also when the content is empty — and converts a `JSONDecodeError`
into one positioned `FileError`. -/
def validate_json_file (fileName content : String) : List FileError :=
  match jsonLoads content with
  | .ok _ => []
  | .error e =>
    [⟨fileName, (calculate_json_error_position content e.pos).1,
      (calculate_json_error_position content e.pos).2, "JSON格式错误: " ++ e.msg⟩]

/-- Embeds `_validate_single_file` for a `.json` path:
`_validate_file_basics` (a missing file raises `FileNotFoundError`, caught
as a load-failure defect; a zero-byte file appends one defect and
continues), then `_validate_json_file`.  `content = none` models a missing
file. -/
def validate_single_file_json (fileName : String) (content : Option String) :
    List FileError :=
  match content with
  | none => [⟨fileName, 0, 0, "文件加载失败: 文件不存在"⟩]
  | some c =>
    (if c.data.length = 0 then [⟨fileName, 0, 0, "文件为空"⟩] else [])
      ++ validate_json_file fileName c

/-- The per-file loop of `_check_files_validity`, restricted to `.json`
members: each file contributes its own defects independently. -/
def check_json_files_validity (files : List (String × Option String)) : List FileError :=
  files.flatMap fun f => validate_single_file_json f.1 f.2

/-- A directory tree node: its name, its plain-file listing (in file-system
order) and its subdirectories. -/
inductive Dir where
  | mk (name : String) (files : List String) (subdirs : List Dir)

/-- Name of a directory node. -/
def Dir.name : Dir → String
  | .mk n _ _ => n

/-- File listing of a directory node. -/
def Dir.files : Dir → List String
  | .mk _ f _ => f

/-- Subdirectories of a directory node. -/
def Dir.subdirs : Dir → List Dir
  | .mk _ _ s => s

/-- Python `pathlib.Path.glob('*<suffix>')` applied to one listing entry:
the name ends with the suffix.  Unlike the `glob` module,
`pathlib.Path.glob` imposes no hidden-file rule, so a leading dot does not
exclude a name (only the subdirectory recursion of
`scan_directory_recursive` skips dot-named directories, explicitly). -/
def globMatch (name suffix : String) : Bool :=
  suffix.data.isSuffixOf name.data

/-- Case-insensitive test `'enaas' in file.name.lower()` (ASCII lowering,
which covers these file names). -/
def hasEnaas (name : String) : Bool :=
  (findSub (name.data.map Char.toLower) "enaas".data).isSome

/-- One discovered file combination `(enaas_file, secret_file, dc_file)`. -/
abbrev ScanUnit := String × String × Option String

mutual
/-- Embeds `scan_directory_recursive`: at each directory (pruned beyond
depth 10), the first `*.json` listing entry containing `enaas`
case-insensitively is the registry candidate; when it exists and some secret
candidate exists, one unit is formed from the head of
`glob('*_secret.yml') + glob('*_secret.yaml')` and the head of
`glob('*_dc.yml') + glob('*_dc.yaml')` (a registry without any secret
candidate only prints a warning); afterwards every non-hidden subdirectory
is scanned.  The directory model is a finite tree, so the `scanned_dirs`
symlink-cycle guard of the Python code is vacuous here. -/
def scanDir : Dir → Nat → List ScanUnit
  | .mk _ files subdirs, depth =>
    if depth > 10 then []
    else
      (match (files.filter fun f => globMatch f ".json").find? hasEnaas with
       | none => []
       | some e =>
         match ((files.filter fun f => globMatch f "_secret.yml")
             ++ (files.filter fun f => globMatch f "_secret.yaml")).head? with
         | none => []
         | some s =>
           [(e, s, ((files.filter fun f => globMatch f "_dc.yml")
               ++ (files.filter fun f => globMatch f "_dc.yaml")).head?)])
      ++ scanSubdirs subdirs depth
/-- Loop of `scan_directory_recursive` over `directory.iterdir()`, skipping
hidden subdirectories. -/
def scanSubdirs : List Dir → Nat → List ScanUnit
  | [], _ => []
  | c :: rest, depth =>
    (if ".".data.isPrefixOf c.name.data then [] else scanDir c (depth + 1))
      ++ scanSubdirs rest depth
end

/-- The claim's words: the first secret file in directory-listing order,
regardless of extension. -/
def specFirstSecretListing (files : List String) : Option String :=
  files.find? fun f => globMatch f "_secret.yml" || globMatch f "_secret.yaml"

/-- The unit formed at one directory according to the amended claim: the
first eligible registry; the first `*_secret.yml` in listing order or,
failing that, the first `*_secret.yaml` (`.yml` candidates take precedence
over `.yaml` regardless of listing order); the analogous descriptor choice;
and no unit when no secret candidate exists. -/
def specLocalUnits (files : List String) : List ScanUnit :=
  match files.find? fun f => globMatch f ".json" && hasEnaas f with
  | none => []
  | some e =>
    match (files.find? fun f => globMatch f "_secret.yml").orElse
        (fun _ => files.find? fun f => globMatch f "_secret.yaml") with
    | none => []
    | some s =>
      [(e, s, (files.find? fun f => globMatch f "_dc.yml").orElse
          (fun _ => files.find? fun f => globMatch f "_dc.yaml"))]

/-- A directory whose listing places a `.yaml` secret before a `.yml`
secret. -/
def mixedDir : Dir := .mk "root" ["z_secret.yaml", "a_secret.yml", "enaas.json"] []

/-- A directory holding one complete file combination. -/
def nestedDir : Dir :=
  .mk "sub" ["enaas-details.json", "app_secret.yml", "app_dc.yml"] []

/-- A root directory whose unit sits in a subdirectory. -/
def rootDir : Dir := .mk "root" ["readme.md"] [nestedDir]

/-- C1 counterexample: in the discovery (batch) mode the process exit code is
0 even when the run produced a defect — `main` returns normally after
`run_batch_review` without inspecting the collected results — so "exit code 0
iff the run produced zero defects" fails in batch mode. -/
theorem main_exit_code_batch_counterexample :
    mainExitCode ["prog", "review openshift manifest"] [defectiveResult] cleanResult = 0
      ∧ defectiveResult.has_errors = true := by
  constructor <;> decide

/-- C1 (amended): usage errors exit with code 1, and in the explicit
three-path mode the exit code is 0 iff the run produced zero defects (1
otherwise); but in the discovery (batch) mode the exit code is always 0,
regardless of how many defects the batch produced. -/
theorem main_exit_code_amended (argv : List String) (batchResults : List ReviewResult)
    (explicitResult : ReviewResult) :
    (isBatchMode argv = true → mainExitCode argv batchResults explicitResult = 0)
      ∧ (isBatchMode argv = false → (argv.length < 3 ∨ 4 < argv.length) →
          mainExitCode argv batchResults explicitResult = 1)
      ∧ (isBatchMode argv = false → 3 ≤ argv.length → argv.length ≤ 4 →
          mainExitCode argv batchResults explicitResult =
            if explicitResult.has_errors then 1 else 0) := by
  refine ⟨fun h => by simp [mainExitCode, h], fun h h2 => by simp [mainExitCode, h, h2],
    fun h h3 h4 => ?_⟩
  have hn : ¬ (argv.length < 3 ∨ 4 < argv.length) := by omega
  simp [mainExitCode, h, hn]

/-- C1 witness: a concrete explicit-mode invocation whose run produced one
defect exits with code 1, obtained from `main_exit_code_amended`. -/
theorem main_exit_code_amended_witness :
    mainExitCode ["prog", "a.json", "b_secret.yml"] [] defectiveResult = 1 := by
  have h := (main_exit_code_amended ["prog", "a.json", "b_secret.yml"] [] defectiveResult).2.2
    (by decide) (by decide) (by decide)
  rw [h]; decide

/-- `isPrefixOf` into the empty list holds only for the empty pattern. -/
theorem isPrefixOf_nil_false {l : List Char} (h : l ≠ []) :
    l.isPrefixOf ([] : List Char) = false := by
  cases l with
  | nil => exact absurd rfl h
  | cons a as => rfl

/-- The marker token is non-empty. -/
theorem markerChars_ne_nil : markerChars ≠ [] := by decide

/-- Unfolding of `extractAux` over a skipped character. -/
theorem extractAux_skip (c : Char) (rest : List Char) (skip : Nat) (st : Option (List Char)) :
    extractAux (c :: rest) (skip + 1) st = extractAux rest skip st := rfl

/-- Unfolding of `extractAux` at an active scanning position. -/
theorem extractAux_zero (c : Char) (rest : List Char) (st : Option (List Char)) :
    extractAux (c :: rest) 0 st =
      if markerChars.isPrefixOf (c :: rest) then
        match st with
        | none => extractAux rest (markerChars.length - 1) (some [])
        | some acc => acc :: extractAux rest (markerChars.length - 1) none
      else
        match st with
        | none => extractAux rest 0 none
        | some acc =>
          if c = '\n' then extractAux rest 0 none
          else extractAux rest 0 (some (acc ++ [c])) := rfl

/-- An occurrence inside `l₁` is an occurrence inside `l₁ ++ l₂`. -/
theorem isPrefixOf_append_right {need l₁ l₂ : List Char} {q : Nat}
    (h : need.isPrefixOf (l₁.drop q) = true) :
    need.isPrefixOf ((l₁ ++ l₂).drop q) = true := by
  rcases le_or_lt q l₁.length with hle | hlt
  · rw [List.drop_append_of_le_length hle]
    have h1 : need <+: l₁.drop q := (List.isPrefixOf_iff_prefix).mp h
    exact (List.isPrefixOf_iff_prefix).mpr (h1.trans (List.prefix_append _ _))
  · have hnil : l₁.drop q = [] := List.drop_eq_nil_of_le (by omega)
    rw [hnil] at h
    have : need = [] := by
      cases need with
      | nil => rfl
      | cons a as => simp [List.isPrefixOf] at h
    subst this
    simp [List.isPrefixOf]

/-- `findSub` returns the first occurrence: the pattern occurs there and at no
earlier index. -/
theorem findSub_first (hay need : List Char) (j : Nat) (h : findSub hay need = some j) :
    occursAt need hay j = true ∧ ∀ q, q < j → occursAt need hay q = false := by
  induction hay generalizing j with
  | nil =>
    by_cases hn : need.isEmpty <;> simp [findSub, hn] at h
    subst h
    have : need = [] := by cases need <;> simp_all [List.isEmpty]
    subst this
    exact ⟨by simp [occursAt, List.isPrefixOf], fun q hq => absurd hq (Nat.not_lt_zero q)⟩
  | cons c rest ih =>
    rw [findSub] at h
    by_cases hp : need.isPrefixOf (c :: rest) = true
    · rw [if_pos hp] at h
      injection h with h
      subst h
      exact ⟨by simpa [occursAt] using hp, fun q hq => absurd hq (Nat.not_lt_zero q)⟩
    · rw [if_neg hp] at h
      obtain ⟨j', hj', rfl⟩ := Option.map_eq_some'.mp h
      obtain ⟨h1, h2⟩ := ih j' hj'
      refine ⟨by simpa [occursAt] using h1, ?_⟩
      intro q hq
      match q with
      | 0 => simpa [occursAt] using Bool.of_not_eq_true hp
      | q' + 1 => simpa [occursAt] using h2 q' (by omega)

/-- If the pattern occurs nowhere, `findSub` returns `none`. -/
theorem findSub_eq_none (hay need : List Char) (h : ∀ q, occursAt need hay q = false) :
    findSub hay need = none := by
  induction hay with
  | nil =>
    cases need with
    | nil => simpa [occursAt, List.isPrefixOf] using h 0
    | cons a as => simp [findSub, List.isEmpty]
  | cons c rest ih =>
    have h0 := h 0
    simp only [occursAt, List.drop] at h0
    rw [findSub, if_neg (by simp [h0]), ih (fun q => by simpa [occursAt] using h (q + 1))]
    rfl

/-- Invariant of the extraction state machine: every emitted span content is
marker-free and newline-free.  The hypothesis carries the in-progress span
invariant: its accumulated content holds no newline; while marker characters
are being skipped the accumulator is still empty; and no marker occurrence
starts inside the accumulated region of the text. -/
theorem extractAux_invariant : ∀ (cs : List Char) (skip : Nat) (st : Option (List Char)),
    (∀ acc, st = some acc → '\n' ∉ acc ∧ (0 < skip → acc = []) ∧
      (∀ q, q < acc.length → occursAt markerChars (acc ++ cs) q = false)) →
    ∀ p ∈ extractAux cs skip st, (∀ q, occursAt markerChars p q = false) ∧ '\n' ∉ p := by
  intro cs
  induction cs with
  | nil => intro skip st hst p hp; simp [extractAux] at hp
  | cons c rest ih =>
    intro skip st hst p hp
    match skip with
    | skip' + 1 =>
      rw [extractAux_skip] at hp
      refine ih skip' st ?_ p hp
      intro acc hacc
      obtain ⟨h1, h2, _⟩ := hst acc hacc
      have he : acc = [] := h2 (by omega)
      subst he
      exact ⟨h1, fun _ => rfl, fun q hq => absurd hq (by simp)⟩
    | 0 =>
      rw [extractAux_zero] at hp
      by_cases hm : markerChars.isPrefixOf (c :: rest) = true
      · rw [if_pos hm] at hp
        match st with
        | none =>
          refine ih _ (some []) ?_ p hp
          intro acc hacc
          injection hacc with hacc
          subst hacc
          exact ⟨by simp, fun _ => rfl, fun q hq => absurd hq (by simp)⟩
        | some acc =>
          obtain ⟨h1, _, h3⟩ := hst acc rfl
          rcases List.mem_cons.mp hp with rfl | hp'
          · refine ⟨?_, h1⟩
            intro q
            by_cases hql : q < p.length
            · cases hb : occursAt markerChars p q with
              | false => rfl
              | true =>
                have : occursAt markerChars (p ++ (c :: rest)) q = true :=
                  isPrefixOf_append_right hb
                rw [h3 q hql] at this
                exact absurd this (by simp)
            · have hnil : p.drop q = [] := List.drop_eq_nil_of_le (by omega)
              simp only [occursAt, hnil]
              exact isPrefixOf_nil_false markerChars_ne_nil
          · refine ih _ none ?_ p hp'
            intro acc' hacc'
            cases hacc'
      · rw [if_neg hm] at hp
        match st with
        | none =>
          refine ih 0 none ?_ p hp
          intro acc' hacc'
          cases hacc'
        | some acc =>
          obtain ⟨h1, _, h3⟩ := hst acc rfl
          have hp2 : p ∈ (if c = '\n' then extractAux rest 0 none
              else extractAux rest 0 (some (acc ++ [c]))) := hp
          clear hp
          by_cases hc : c = '\n'
          · rw [if_pos hc] at hp2
            refine ih 0 none ?_ p hp2
            intro acc' hacc'
            cases hacc'
          · rw [if_neg hc] at hp2
            refine ih 0 (some (acc ++ [c])) ?_ p hp2
            intro acc' hacc'
            injection hacc' with hacc'
            subst hacc'
            refine ⟨?_, fun hk => absurd hk (by omega), ?_⟩
            · intro hmem
              rcases List.mem_append.mp hmem with hmem | hmem
              · exact h1 hmem
              · exact hc (List.mem_singleton.mp hmem).symm
            · intro q hq
              have hassoc : (acc ++ [c]) ++ rest = acc ++ (c :: rest) := by
                simp
              rw [hassoc]
              simp only [List.length_append, List.length_cons, List.length_nil] at hq
              by_cases hql : q < acc.length
              · exact h3 q hql
              · have hq' : q = acc.length := by omega
                subst hq'
                simp only [occursAt, List.drop_left]
                exact Bool.of_not_eq_true hm

/-- C10: every placeholder content string returned by `_extract_placeholders`
contains neither the marker token `<ENAAS_PLACEHOLDER>` nor a newline
character (the regex `.` does not match newlines, and the non-greedy span
stops at the first following marker), so in particular a marker pair whose
opening and closing markers lie on different lines contributes no content. -/
theorem extract_placeholders_invariant (content p : String)
    (h : p ∈ extract_placeholders content) :
    findSub p.data markerChars = none ∧ '\n' ∉ p.data := by
  obtain ⟨cs, hcs, rfl⟩ := List.mem_map.mp h
  have inv := extractAux_invariant content.data 0 none
    (fun acc hacc => by cases hacc) cs hcs
  exact ⟨findSub_eq_none _ _ inv.1, inv.2⟩

/-- C10 witness: the content extracted from a concrete manifest line is
marker-free and newline-free. -/
theorem extract_placeholders_invariant_witness :
    findSub "db_password".data markerChars = none ∧ '\n' ∉ "db_password".data :=
  extract_placeholders_invariant
    "k: <ENAAS_PLACEHOLDER>db_password<ENAAS_PLACEHOLDER>" "db_password" (by decide)

/-- Membership characterisation of the per-line parity loop: a defect is
produced exactly for the lines whose marker count is positive and odd. -/
theorem mem_checkTagsLines (fileName : String) (e : SecretKeyError) :
    ∀ (ls : List (List Char)) (n : Nat),
      e ∈ checkTagsLines fileName ls n ↔
        ∃ i line, ls[i]? = some line ∧ 0 < countSub line markerChars ∧
          countSub line markerChars % 2 = 1 ∧
          e = ⟨fileName, n + i, (findSub line markerChars).getD 0 + 1, "", "",
            "ENAAS_PLACEHOLDER标签不成对"⟩ := by
  intro ls
  induction ls with
  | nil => intro n; simp [checkTagsLines]
  | cons line rest ih =>
    intro n
    rw [checkTagsLines]
    rw [List.mem_append]
    constructor
    · rintro (h | h)
      · by_cases hc : 0 < countSub line markerChars ∧ countSub line markerChars % 2 ≠ 0
        · rw [if_pos hc] at h
          refine ⟨0, line, by simp, hc.1, by omega, ?_⟩
          simpa using List.mem_singleton.mp h
        · rw [if_neg hc] at h
          exact absurd h (List.not_mem_nil e)
      · obtain ⟨i, l, h1, h2, h3, h4⟩ := (ih (n + 1)).mp h
        refine ⟨i + 1, l, by simpa using h1, h2, h3, ?_⟩
        have harith : n + 1 + i = n + (i + 1) := by omega
        rw [harith] at h4
        exact h4
    · rintro ⟨i, l, h1, h2, h3, h4⟩
      cases i with
      | zero =>
        rw [List.getElem?_cons_zero] at h1
        injection h1 with h1
        subst h1
        left
        have hcond : 0 < countSub line markerChars ∧ countSub line markerChars % 2 ≠ 0 :=
          ⟨h2, by omega⟩
        rw [if_pos hcond]
        simpa using h4
      | succ i' =>
        right
        refine (ih (n + 1)).mpr ⟨i', l, by simpa using h1, h2, h3, ?_⟩
        have harith : n + (i' + 1) = n + 1 + i' := by omega
        rw [harith] at h4
        exact h4

/-- C3: a marker-parity defect is reported for a line of the raw manifest
text iff that line's count of `<ENAAS_PLACEHOLDER>` occurrences is positive
and odd, with the defect at the column of the line's first marker (`findSub`
returns the first occurrence index, third conjunct); when every line's marker
count is even, no parity defect is reported (second conjunct). -/
theorem check_placeholder_tags_spec (fileName content : String) :
    (∀ e, e ∈ check_placeholder_tags fileName content ↔
      ∃ i line, (splitLines content.data)[i]? = some line ∧
        0 < countSub line markerChars ∧ countSub line markerChars % 2 = 1 ∧
        e = ⟨fileName, 1 + i, (findSub line markerChars).getD 0 + 1, "", "",
          "ENAAS_PLACEHOLDER标签不成对"⟩)
    ∧ ((∀ line ∈ splitLines content.data, countSub line markerChars % 2 = 0) →
        check_placeholder_tags fileName content = [])
    ∧ (∀ line j, findSub line markerChars = some j →
        occursAt markerChars line j = true ∧
          ∀ q, q < j → occursAt markerChars line q = false) := by
  refine ⟨fun e => mem_checkTagsLines fileName e (splitLines content.data) 1, ?_,
    fun line j h => findSub_first line markerChars j h⟩
  intro hall
  rw [List.eq_nil_iff_forall_not_mem]
  intro e he
  obtain ⟨i, line, h1, _, h3, _⟩ :=
    (mem_checkTagsLines fileName e (splitLines content.data) 1).mp he
  have hmem : line ∈ splitLines content.data := List.getElem?_mem h1
  have := hall line hmem
  omega

/-- C3 witness: a manifest whose single line holds one complete marker pair
(count 2, even) yields no parity defect. -/
theorem check_placeholder_tags_spec_witness :
    check_placeholder_tags "a_secret.yml"
      "k: <ENAAS_PLACEHOLDER>db_password<ENAAS_PLACEHOLDER>" = [] :=
  (check_placeholder_tags_spec "a_secret.yml"
    "k: <ENAAS_PLACEHOLDER>db_password<ENAAS_PLACEHOLDER>").2.1 (by decide)

/-- `splitFirstUnderscore` computes exactly the decomposition at the first
underscore: `g` before it (underscore-free) and `k` after it. -/
theorem splitFirstUnderscore_eq_some (cs g k : List Char) :
    splitFirstUnderscore cs = some (g, k) ↔ (cs = g ++ '_' :: k ∧ '_' ∉ g) := by
  induction cs generalizing g with
  | nil =>
    rw [splitFirstUnderscore]
    constructor
    · intro h; cases h
    · rintro ⟨h, -⟩
      exact absurd h (by cases g <;> simp)
  | cons c rest ih =>
    rw [splitFirstUnderscore]
    by_cases hc : c = '_'
    · subst hc
      rw [if_pos rfl]
      constructor
      · intro h
        injection h with h
        obtain ⟨rfl, rfl⟩ := (Prod.mk.injEq _ _ _ _).mp h
        exact ⟨rfl, by simp⟩
      · rintro ⟨h, hg⟩
        cases g with
        | nil =>
          simp only [List.nil_append, List.cons.injEq] at h
          rw [h.2]
        | cons c0 g' =>
          simp only [List.cons_append, List.cons.injEq] at h
          exact absurd (h.1 ▸ List.mem_cons_self c0 g') hg
    · rw [if_neg hc]
      constructor
      · intro h
        obtain ⟨⟨g', k'⟩, hsplit, heq⟩ := Option.map_eq_some'.mp h
        have hg : c :: g' = g := congrArg Prod.fst heq
        have hk : k' = k := congrArg Prod.snd heq
        subst hg; subst hk
        obtain ⟨hrest, hg'⟩ := (ih g').mp hsplit
        refine ⟨by simp [hrest], ?_⟩
        intro hmem
        rcases List.mem_cons.mp hmem with h1 | h1
        · exact hc h1.symm
        · exact hg' h1
      · rintro ⟨h, hg⟩
        cases g with
        | nil =>
          simp only [List.nil_append, List.cons.injEq] at h
          exact absurd h.1 hc
        | cons c0 g' =>
          simp only [List.cons_append, List.cons.injEq] at h
          obtain ⟨hc0, hrest⟩ := h
          subst hc0
          have hg' : '_' ∉ g' := fun hm => hg (List.mem_cons_of_mem _ hm)
          rw [(ih g').mpr ⟨hrest, hg'⟩]
          rfl

/-- Under unique keys, the first-match lookup finds exactly the entries of
the association list (the Python `dict` reading). -/
theorem lookupA_eq_some_iff {α : Type} (m : List (String × α)) (key : String) (v : α)
    (hnd : (m.map Prod.fst).Nodup) :
    lookupA m key = some v ↔ (key, v) ∈ m := by
  induction m with
  | nil => simp [lookupA]
  | cons e rest ih =>
    obtain ⟨k0, v0⟩ := e
    simp only [List.map_cons, List.nodup_cons] at hnd
    rw [lookupA]
    by_cases hk : k0 = key
    · subst hk
      rw [if_pos rfl]
      constructor
      · intro h
        injection h with h
        subst h
        exact List.mem_cons_self _ _
      · intro hmem
        rcases List.mem_cons.mp hmem with heq | hmem'
        · have hv : v = v0 := congrArg Prod.snd heq
          rw [hv]
        · exact absurd (List.mem_map_of_mem Prod.fst hmem') hnd.1
    · rw [if_neg hk]
      rw [ih hnd.2]
      simp only [List.mem_cons, Prod.mk.injEq]
      constructor
      · exact Or.inr
      · rintro (⟨rfl, -⟩ | hmem)
        · exact absurd rfl hk
        · exact hmem

/-- The keys-form validator accepts exactly the strings admitted by the
first disjunct of the spec's acceptance condition. -/
theorem is_valid_keys_placeholder_iff (keys : KeysMap) (p : String)
    (hwf : ∀ app ∈ keys, (app.2.map Prod.fst).Nodup) :
    is_valid_keys_placeholder keys p = true ↔
      ∃ g k, p.data = g ++ '_' :: k ∧ '_' ∉ g ∧
        ∃ app ∈ keys, ∃ e ∈ app.2, e.1 = String.mk g ∧ String.mk k ∈ e.2 := by
  rw [is_valid_keys_placeholder]
  cases hsp : splitFirstUnderscore p.data with
  | none =>
    simp only [Bool.false_eq_true, false_iff]
    rintro ⟨g, k, hdec, hg, -⟩
    rw [(splitFirstUnderscore_eq_some p.data g k).mpr ⟨hdec, hg⟩] at hsp
    cases hsp
  | some pr =>
    obtain ⟨g, k⟩ := pr
    obtain ⟨hdec, hg⟩ := (splitFirstUnderscore_eq_some p.data g k).mp hsp
    rw [List.any_eq_true]
    constructor
    · rintro ⟨app, happ, hcond⟩
      refine ⟨g, k, hdec, hg, app, happ, ?_⟩
      cases hlk : lookupA app.2 (String.mk g) with
      | none => rw [hlk] at hcond; cases hcond
      | some ks =>
        rw [hlk] at hcond
        refine ⟨(String.mk g, ks), (lookupA_eq_some_iff _ _ _ (hwf app happ)).mp hlk,
          rfl, ?_⟩
        simpa using hcond
    · rintro ⟨g', k', hdec', hg', app, happ, e, he, hfst, hsnd⟩
      have : (g', k') = (g, k) := by
        have h1 := (splitFirstUnderscore_eq_some p.data g' k').mpr ⟨hdec', hg'⟩
        rw [hsp] at h1
        injection h1 with h1
        exact h1.symm
      obtain ⟨rfl, rfl⟩ := (Prod.mk.injEq _ _ _ _).mp this
      refine ⟨app, happ, ?_⟩
      obtain ⟨e1, e2⟩ := e
      simp only at hfst
      subst hfst
      rw [(lookupA_eq_some_iff _ _ _ (hwf app happ)).mpr he]
      simpa using hsnd

/-- The autoKeys-form validator accepts exactly the strings admitted by the
second disjunct of the spec's acceptance condition. -/
theorem is_valid_auto_keys_placeholder_iff (autoKeys : AutoMap) (p : String) :
    is_valid_auto_keys_placeholder autoKeys p = true ↔
      ∃ app ∈ autoKeys, ∃ tv ∈ app.2, ∃ v ∈ tv.2, p = tv.1 ++ "_" ++ v := by
  rw [is_valid_auto_keys_placeholder]
  simp [List.any_eq_true]

/-- Length of the rejected-placeholder defect list equals the number of
rejected placeholders. -/
theorem length_filterMap_if {α β : Type} (l : List α) (c : α → Bool) (f : α → β) :
    (l.filterMap fun a => if c a then none else some (f a)).length =
      (l.filter fun a => ! c a).length := by
  induction l with
  | nil => rfl
  | cons a rest ih =>
    by_cases h : c a <;> simp [List.filterMap_cons, List.filter_cons, h, ih]

/-- C2: a placeholder content string is accepted by the cross-checker iff it
matches the `{secretGroup}_{keyName}` form (split at the first underscore,
checked across all applications of `keys`) or the `{templateName}_{value}`
form (across all applications of `autoKeys`); and each rejected placeholder
extracted from the manifest yields exactly one `SecretKeyError` whose
`secret_key` field is the placeholder content and whose `secret_name` field
is empty (membership characterisation plus defect count). -/
theorem validate_placeholder_content_spec (keys : KeysMap) (autoKeys : AutoMap)
    (fileName content p : String)
    (hwf : ∀ app ∈ keys, (app.2.map Prod.fst).Nodup) :
    (validate_placeholder_content keys autoKeys p = true ↔
      SpecPlaceholderValid keys autoKeys p)
    ∧ (∀ e, e ∈ check_placeholder_content_matching keys autoKeys fileName content ↔
        ∃ q ∈ extract_placeholders content,
          validate_placeholder_content keys autoKeys q = false ∧
          e = ⟨fileName, (find_placeholder_position q content).1,
            (find_placeholder_position q content).2, "", q,
            "在enaas.json中未找到对应的配置"⟩)
    ∧ (check_placeholder_content_matching keys autoKeys fileName content).length =
        ((extract_placeholders content).filter
          (fun q => ! validate_placeholder_content keys autoKeys q)).length := by
  refine ⟨?_, ?_, ?_⟩
  · rw [validate_placeholder_content, Bool.or_eq_true, SpecPlaceholderValid,
      is_valid_keys_placeholder_iff keys p hwf, is_valid_auto_keys_placeholder_iff]
  · intro e
    rw [check_placeholder_content_matching, List.mem_filterMap]
    constructor
    · rintro ⟨q, hq, hsome⟩
      by_cases hv : validate_placeholder_content keys autoKeys q
      · rw [if_pos hv] at hsome; cases hsome
      · rw [if_neg hv] at hsome
        injection hsome with hsome
        exact ⟨q, hq, by simpa using hv, hsome.symm⟩
    · rintro ⟨q, hq, hv, rfl⟩
      refine ⟨q, hq, ?_⟩
      rw [if_neg (by simp [hv])]
  · exact length_filterMap_if (extract_placeholders content)
      (validate_placeholder_content keys autoKeys) _

/-- C2 witness: with registry `keys.myapp.db = [password]` and
`autoKeys.myapp.apiVersion = [v2]`, the concrete content `db_password` is
accepted, so it satisfies the spec's acceptance condition. -/
theorem validate_placeholder_content_spec_witness :
    SpecPlaceholderValid sampleKeys sampleAutoKeys "db_password" :=
  ((validate_placeholder_content_spec sampleKeys sampleAutoKeys "enaas.json" ""
    "db_password" (by decide)).1).mp (by decide)

/-- C4: the cross-checker reports a missing application exactly for the
`encodedKeys` applications absent from `keys`, a missing secret-group exactly
for the declared groups absent under their (present) application, and a
missing key exactly for the declared keys absent from the (present) group's
key list; each characterisation depends only on the entry itself, so a
missing application does not prevent checking its sibling entries. -/
theorem check_encoded_keys_consistency_spec (keys encoded : KeysMap) :
    (∀ a, EncodedIssue.missingApp a ∈ check_encoded_keys_consistency keys encoded ↔
      ((∃ gs, (a, gs) ∈ encoded) ∧ lookupA keys a = none))
    ∧ (∀ g, EncodedIssue.missingGroup g ∈ check_encoded_keys_consistency keys encoded ↔
      ∃ a gs appKeys ks, (a, gs) ∈ encoded ∧ lookupA keys a = some appKeys ∧
        (g, ks) ∈ gs ∧ lookupA appKeys g = none)
    ∧ (∀ k a g, EncodedIssue.missingKey k a g ∈ check_encoded_keys_consistency keys encoded ↔
      ∃ gs appKeys ks gks, (a, gs) ∈ encoded ∧ lookupA keys a = some appKeys ∧
        (g, ks) ∈ gs ∧ lookupA appKeys g = some gks ∧ k ∈ ks ∧
        gks.contains k = false) := by
  refine ⟨?_, ?_, ?_⟩
  · intro a
    rw [check_encoded_keys_consistency, List.mem_flatMap]
    constructor
    · rintro ⟨ag, hag, hmem⟩
      cases hl : lookupA keys ag.1 with
      | none =>
        rw [encodedIssuesOfApp, hl] at hmem
        have h := List.mem_singleton.mp hmem
        injection h with h
        subst h
        exact ⟨⟨ag.2, hag⟩, hl⟩
      | some appKeys =>
        rw [encodedIssuesOfApp, hl, List.mem_flatMap] at hmem
        obtain ⟨gk, -, hmem⟩ := hmem
        cases hg : lookupA appKeys gk.1 with
        | none =>
          rw [encodedIssuesOfGroup, hg] at hmem
          have h := List.mem_singleton.mp hmem
          simp at h
        | some gks =>
          rw [encodedIssuesOfGroup, hg, List.mem_filterMap] at hmem
          obtain ⟨k, -, hsome⟩ := hmem
          by_cases hc : gks.contains k
          · rw [if_pos hc] at hsome; cases hsome
          · rw [if_neg hc] at hsome
            injection hsome with h
            simp at h
    · rintro ⟨⟨gs, hmem⟩, hnone⟩
      refine ⟨(a, gs), hmem, ?_⟩
      rw [encodedIssuesOfApp]
      simp only
      rw [hnone]
      exact List.mem_singleton.mpr rfl
  · intro g
    rw [check_encoded_keys_consistency, List.mem_flatMap]
    constructor
    · rintro ⟨ag, hag, hmem⟩
      cases hl : lookupA keys ag.1 with
      | none =>
        rw [encodedIssuesOfApp, hl] at hmem
        have h := List.mem_singleton.mp hmem
        simp at h
      | some appKeys =>
        rw [encodedIssuesOfApp, hl, List.mem_flatMap] at hmem
        obtain ⟨gk, hgk, hmem⟩ := hmem
        cases hg : lookupA appKeys gk.1 with
        | none =>
          rw [encodedIssuesOfGroup, hg] at hmem
          have h := List.mem_singleton.mp hmem
          injection h with h
          subst h
          exact ⟨ag.1, ag.2, appKeys, gk.2, hag, hl, hgk, hg⟩
        | some gks =>
          rw [encodedIssuesOfGroup, hg, List.mem_filterMap] at hmem
          obtain ⟨k, -, hsome⟩ := hmem
          by_cases hc : gks.contains k
          · rw [if_pos hc] at hsome; cases hsome
          · rw [if_neg hc] at hsome
            injection hsome with h
            simp at h
    · rintro ⟨a, gs, appKeys, ks, hmem, hsomeA, hgk, hnone⟩
      refine ⟨(a, gs), hmem, ?_⟩
      rw [encodedIssuesOfApp]
      simp only
      rw [hsomeA, List.mem_flatMap]
      refine ⟨(g, ks), hgk, ?_⟩
      rw [encodedIssuesOfGroup]
      simp only
      rw [hnone]
      exact List.mem_singleton.mpr rfl
  · intro k a g
    rw [check_encoded_keys_consistency, List.mem_flatMap]
    constructor
    · rintro ⟨ag, hag, hmem⟩
      cases hl : lookupA keys ag.1 with
      | none =>
        rw [encodedIssuesOfApp, hl] at hmem
        have h := List.mem_singleton.mp hmem
        simp at h
      | some appKeys =>
        rw [encodedIssuesOfApp, hl, List.mem_flatMap] at hmem
        obtain ⟨gk, hgk, hmem⟩ := hmem
        cases hg : lookupA appKeys gk.1 with
        | none =>
          rw [encodedIssuesOfGroup, hg] at hmem
          have h := List.mem_singleton.mp hmem
          simp at h
        | some gks =>
          rw [encodedIssuesOfGroup, hg, List.mem_filterMap] at hmem
          obtain ⟨k0, hk0, hsome⟩ := hmem
          by_cases hc : gks.contains k0
          · rw [if_pos hc] at hsome; cases hsome
          · rw [if_neg hc] at hsome
            injection hsome with h
            have h1 : k0 = k := congrArg (fun i => match i with
              | EncodedIssue.missingKey x _ _ => x
              | _ => "") h
            have h2 : ag.1 = a := congrArg (fun i => match i with
              | EncodedIssue.missingKey _ x _ => x
              | _ => "") h
            have h3 : gk.1 = g := congrArg (fun i => match i with
              | EncodedIssue.missingKey _ _ x => x
              | _ => "") h
            subst h1; subst h2; subst h3
            exact ⟨ag.2, appKeys, gk.2, gks, hag, hl, hgk, hg, hk0, by simpa using hc⟩
    · rintro ⟨gs, appKeys, ks, gks, hmem, hsomeA, hgk, hsomeG, hk, hc⟩
      refine ⟨(a, gs), hmem, ?_⟩
      rw [encodedIssuesOfApp]
      simp only
      rw [hsomeA, List.mem_flatMap]
      refine ⟨(g, ks), hgk, ?_⟩
      rw [encodedIssuesOfGroup]
      simp only
      rw [hsomeG, List.mem_filterMap]
      refine ⟨k, hk, ?_⟩
      rw [if_neg (by rw [hc]; simp)]

/-- A resolving identity implies the manifest document is truthy (it is a
non-empty mapping). -/
theorem yamlTruthy_of_get_secret_name {secretData : Yaml} {s : String}
    (h : get_secret_name secretData = some s) : yamlTruthy secretData = true := by
  cases secretData with
  | scalar t => simp [get_secret_name] at h
  | seq items => simp [get_secret_name] at h
  | map entries =>
    cases entries with
    | nil => simp [get_secret_name, lookupY] at h
    | cons e rest => rfl

/-- A discovered reference implies the descriptor document is truthy. -/
theorem yamlTruthy_of_refs {dcData : Yaml}
    (h : find_secret_refs dcData "" ≠ []) : yamlTruthy dcData = true := by
  cases dcData with
  | scalar t => exact absurd rfl h
  | seq items =>
    cases items with
    | nil => exact absurd rfl h
    | cons a rest => rfl
  | map entries =>
    cases entries with
    | nil => exact absurd rfl h
    | cons e rest => rfl

/-- The reference check never touches the two defect lists, on any path. -/
theorem check_secret_reference_validity_preserves (secretData dcData : Yaml)
    (init : ReviewResult) :
    (check_secret_reference_validity secretData dcData init).file_errors =
        init.file_errors
    ∧ (check_secret_reference_validity secretData dcData init).secret_key_errors =
        init.secret_key_errors := by
  unfold check_secret_reference_validity
  dsimp only
  repeat' split
  all_goals exact ⟨rfl, rfl⟩

/-- C5: with a resolving (non-empty, string) manifest identity and at least
one discovered `secretRef` reference, the recorded match boolean is true iff
every discovered reference name equals the identity exactly; the pair
(identity, comma-joined reference names) is recorded; and no `FileError` or
`SecretKeyError` is produced, even on mismatch. -/
theorem check_secret_reference_validity_spec (secretData dcData : Yaml)
    (init : ReviewResult) (s : String) (ss : List String)
    (hname : get_secret_name secretData = some s) (hs : s ≠ "")
    (hrefs : find_secret_refs dcData "" ≠ [])
    (hss : scalarStrings ((find_secret_refs dcData "").map Prod.fst) = some ss) :
    ((check_secret_reference_validity secretData dcData init).secret_ref_match = true ↔
      ∀ y ∈ (find_secret_refs dcData "").map Prod.fst, yamlEqScalar y s = true)
    ∧ (check_secret_reference_validity secretData dcData init).secret_ref_names =
        (s, ", ".intercalate ss)
    ∧ (check_secret_reference_validity secretData dcData init).file_errors =
        init.file_errors
    ∧ (check_secret_reference_validity secretData dcData init).secret_key_errors =
        init.secret_key_errors := by
  have h1 := yamlTruthy_of_get_secret_name hname
  have h2 := yamlTruthy_of_refs hrefs
  have hempty : (find_secret_refs dcData "").isEmpty = false := by
    cases hl : find_secret_refs dcData "" with
    | nil => exact absurd hl hrefs
    | cons a rest => rfl
  have hred : check_secret_reference_validity secretData dcData init =
      { init with
        secret_ref_names := (s, ", ".intercalate ss)
        secret_ref_match :=
          ((find_secret_refs dcData "").map Prod.fst).all fun y => yamlEqScalar y s } := by
    unfold check_secret_reference_validity
    rw [h1, h2, hname]
    simp only [Bool.not_true, Bool.or_self, Bool.false_eq_true, if_false]
    rw [if_neg hs]
    simp only [hempty, Bool.false_eq_true, if_false]
    rw [hss]
  rw [hred]
  refine ⟨?_, rfl, rfl, rfl⟩
  simp [List.all_eq_true]

/-- C5 witness: a descriptor with two `secretRef.name` occurrences both equal
to the manifest identity `app` records match = true and the pair
`(app, "app, app")`. -/
theorem check_secret_reference_validity_spec_witness :
    (check_secret_reference_validity sampleSecretData sampleMatchDc
        cleanResult).secret_ref_match = true
    ∧ (check_secret_reference_validity sampleSecretData sampleMatchDc
        cleanResult).secret_ref_names = ("app", "app, app") := by
  have hrefs : find_secret_refs sampleMatchDc "" ≠ [] := by
    intro h
    have : ([] : List (Yaml × String)).length =
        (find_secret_refs sampleMatchDc "").length := by rw [h]
    simp at this
    rw [show (find_secret_refs sampleMatchDc "").length = 2 from rfl] at this
    cases this
  have h := check_secret_reference_validity_spec sampleSecretData sampleMatchDc
    cleanResult "app" ["app", "app"] rfl (by decide) hrefs rfl
  refine ⟨h.1.mpr ?_, h.2.1⟩
  intro y hy
  have : (find_secret_refs sampleMatchDc "").map Prod.fst =
      [Yaml.scalar "app", Yaml.scalar "app"] := rfl
  rw [this] at hy
  rcases List.mem_cons.mp hy with rfl | hy
  · rfl
  · rcases List.mem_cons.mp hy with rfl | hy
    · rfl
    · exact absurd hy (List.not_mem_nil y)

/-- C9: a reference-name mismatch only affects the recorded boolean — the
reference check appends no `FileError` or `SecretKeyError` — so a run whose
defect lists are empty before this check still reports no errors and exits 0
in explicit mode. -/
theorem ref_mismatch_no_defects (secretData dcData : Yaml) (init : ReviewResult)
    (h1 : init.file_errors = []) (h2 : init.secret_key_errors = []) :
    (check_secret_reference_validity secretData dcData init).has_errors = false
    ∧ mainExitCode ["prog", "enaas.json", "app_secret.yml"] []
        (check_secret_reference_validity secretData dcData init) = 0 := by
  obtain ⟨hfe, hse⟩ :=
    check_secret_reference_validity_preserves secretData dcData init
  have hhe : (check_secret_reference_validity secretData dcData init).has_errors = false := by
    rw [ReviewResult.has_errors, hfe, hse, h1, h2]
    rfl
  refine ⟨hhe, ?_⟩
  rw [mainExitCode]
  rw [if_neg (by decide), if_neg (by decide), if_neg (by rw [hhe]; simp)]

/-- C9 witness: a concrete run whose only problem is one mismatching
reference name reports no errors and exits 0 in explicit mode (and indeed
records match = false). -/
theorem ref_mismatch_no_defects_witness :
    (check_secret_reference_validity sampleSecretData sampleMismatchDc
        cleanResult).has_errors = false
    ∧ mainExitCode ["prog", "enaas.json", "app_secret.yml"] []
        (check_secret_reference_validity sampleSecretData sampleMismatchDc
          cleanResult) = 0
    ∧ (check_secret_reference_validity sampleSecretData sampleMismatchDc
        cleanResult).secret_ref_match = false := by
  obtain ⟨ha, hb⟩ :=
    ref_mismatch_no_defects sampleSecretData sampleMismatchDc cleanResult rfl rfl
  exact ⟨ha, hb, rfl⟩

/-- C7 counterexample: on the single line `a<TAB>b` the tab is not before
the first non-whitespace character and the leading-space run is empty, so
the claim predicts no indentation defect (`specIndentationDefects`), yet the
code reports a tab defect at column 2, because `'\t' in line` inspects the
whole line. -/
theorem yaml_indentation_tab_counterexample :
    validate_yaml_indentation "f.yml" "a\tb" = [⟨"f.yml", 1, 2, tabMsg⟩]
    ∧ specIndentationDefects "f.yml" "a\tb" = [] := by
  constructor <;> decide

/-- Membership characterisation of the per-line indentation loop. -/
theorem mem_checkIndentLines (fileName : String) (e : FileError) :
    ∀ (ls : List (List Char)) (n : Nat),
      e ∈ checkIndentLines fileName ls n ↔
        ∃ i line, ls[i]? = some line ∧ hasNonWs line = true ∧
          startsWithHash line = false ∧
          ((line.contains '\t' = true ∧
              e = ⟨fileName, n + i, line.findIdx (fun c => c == '\t') + 1, tabMsg⟩)
            ∨ ((line.takeWhile isPySpace).length % 2 ≠ 0 ∧
                0 < (line.takeWhile isPySpace).length ∧
                e = ⟨fileName, n + i, (line.takeWhile isPySpace).length + 1,
                  indentMsg ((line.takeWhile isPySpace).length)⟩)) := by
  intro ls
  induction ls with
  | nil => intro n; simp [checkIndentLines]
  | cons line rest ih =>
    intro n
    rw [checkIndentLines, List.mem_append]
    constructor
    · rintro (h | h)
      · by_cases hcond : (hasNonWs line && !startsWithHash line) = true
        · rw [if_pos hcond] at h
          rw [Bool.and_eq_true, Bool.not_eq_true'] at hcond
          rcases List.mem_append.mp h with h | h
          · by_cases ht : line.contains '\t' = true
            · rw [if_pos ht] at h
              exact ⟨0, line, by simp, hcond.1, hcond.2,
                Or.inl ⟨ht, by simpa using List.mem_singleton.mp h⟩⟩
            · rw [if_neg ht] at h
              exact absurd h (List.not_mem_nil e)
          · by_cases hi : (line.takeWhile isPySpace).length % 2 ≠ 0 ∧
                0 < (line.takeWhile isPySpace).length
            · rw [if_pos hi] at h
              exact ⟨0, line, by simp, hcond.1, hcond.2,
                Or.inr ⟨hi.1, hi.2, by simpa using List.mem_singleton.mp h⟩⟩
            · rw [if_neg hi] at h
              exact absurd h (List.not_mem_nil e)
        · rw [if_neg hcond] at h
          exact absurd h (List.not_mem_nil e)
      · obtain ⟨i, l, h1, h2, h3, h4⟩ := (ih (n + 1)).mp h
        refine ⟨i + 1, l, by simpa using h1, h2, h3, ?_⟩
        have harith : n + 1 + i = n + (i + 1) := by omega
        rw [harith] at h4
        exact h4
    · rintro ⟨i, l, h1, h2, h3, h4⟩
      cases i with
      | zero =>
        rw [List.getElem?_cons_zero] at h1
        injection h1 with h1
        subst h1
        left
        have hcond : (hasNonWs line && !startsWithHash line) = true := by
          rw [Bool.and_eq_true, Bool.not_eq_true']
          exact ⟨h2, h3⟩
        rw [if_pos hcond, List.mem_append]
        rcases h4 with ⟨ht, he⟩ | ⟨hm, hp, he⟩
        · left
          rw [if_pos ht]
          simpa using he
        · right
          rw [if_pos (⟨hm, hp⟩ : _ ∧ _)]
          simpa using he
      | succ i' =>
        right
        refine (ih (n + 1)).mpr ⟨i', l, by simpa using h1, h2, h3, ?_⟩
        have harith : n + (i' + 1) = n + 1 + i' := by omega
        rw [harith] at h4
        exact h4

/-- C7 (amended): for every line whose stripped form is non-empty and that
does not start with `#`, a tab character anywhere in the line produces one
defect at the first tab's column, and a leading-whitespace run (spaces or
tabs, `len(line) - len(line.lstrip())`) of positive length not a multiple of
two produces one further defect at column indent+1; a line can produce both,
and a line with no tab and an even leading-whitespace length produces
neither. -/
theorem validate_yaml_indentation_spec (fileName content : String) (e : FileError) :
    e ∈ validate_yaml_indentation fileName content ↔
      ∃ i line, (splitLines content.data)[i]? = some line ∧ hasNonWs line = true ∧
        startsWithHash line = false ∧
        ((line.contains '\t' = true ∧
            e = ⟨fileName, 1 + i, line.findIdx (fun c => c == '\t') + 1, tabMsg⟩)
          ∨ ((line.takeWhile isPySpace).length % 2 ≠ 0 ∧
              0 < (line.takeWhile isPySpace).length ∧
              e = ⟨fileName, 1 + i, (line.takeWhile isPySpace).length + 1,
                indentMsg ((line.takeWhile isPySpace).length)⟩)) :=
  mem_checkIndentLines fileName e (splitLines content.data) 1

/-- C6 counterexample: a zero-byte registry file yields TWO defects, not one
— `_validate_json_file` still runs on the empty content, `json.loads('')`
fails with `Expecting value` at offset 0, and a JSON-parse defect at line 1
column 1 is appended after the `文件为空` defect — refuting "exactly one
defect and no JSON-parse defect; parsing is skipped for empty content". -/
theorem empty_registry_two_defects_counterexample :
    validate_single_file_json "enaas.json" (some "") =
      [⟨"enaas.json", 0, 0, "文件为空"⟩,
       ⟨"enaas.json", 1, 1, "JSON格式错误: Expecting value"⟩]
    ∧ 1 < (validate_single_file_json "enaas.json" (some "")).length := by
  have hj : jsonLoads "" = .error ⟨"Expecting value", 0⟩ := by
    simp [jsonLoads, skipWsJ, parseValue]
  have h1 : validate_single_file_json "enaas.json" (some "") =
      [⟨"enaas.json", 0, 0, "文件为空"⟩,
       ⟨"enaas.json", 1, 1, "JSON格式错误: Expecting value"⟩] := by
    simp [validate_single_file_json, validate_json_file, hj,
      calculate_json_error_position]
  exact ⟨h1, by rw [h1]; decide⟩

/-- C6 (amended): a zero-byte registry file yields exactly two FileDefects —
the "file is empty" defect AND a JSON-parse defect at line 1 column 1,
because parsing is attempted on the empty content and fails — and the empty
file is not fatal: validation of the remaining files proceeds and their
defects are appended unchanged. -/
theorem empty_registry_defects_amended (fileName : String)
    (rest : List (String × Option String)) :
    validate_single_file_json fileName (some "") =
      [⟨fileName, 0, 0, "文件为空"⟩,
       ⟨fileName, 1, 1, "JSON格式错误: Expecting value"⟩]
    ∧ check_json_files_validity ((fileName, some "") :: rest) =
        [⟨fileName, 0, 0, "文件为空"⟩,
         ⟨fileName, 1, 1, "JSON格式错误: Expecting value"⟩]
          ++ check_json_files_validity rest := by
  have hj : jsonLoads "" = .error ⟨"Expecting value", 0⟩ := by
    simp [jsonLoads, skipWsJ, parseValue]
  have h1 : validate_single_file_json fileName (some "") =
      [⟨fileName, 0, 0, "文件为空"⟩,
       ⟨fileName, 1, 1, "JSON格式错误: Expecting value"⟩] := by
    simp [validate_single_file_json, validate_json_file, hj,
      calculate_json_error_position]
  refine ⟨h1, ?_⟩
  simp only [check_json_files_validity, List.flatMap_cons]
  rw [h1]

/-- C8 counterexample: with listing order `z_secret.yaml, a_secret.yml,
enaas.json` the code forms the unit with `a_secret.yml` — the head of
`glob('*_secret.yml') + glob('*_secret.yaml')` — although the first secret
file in directory-listing order is `z_secret.yaml`, refuting "the first
secret file … in directory-listing order". -/
theorem scan_first_secret_counterexample :
    scanDir mixedDir 0 = [("enaas.json", "a_secret.yml", none)]
    ∧ specFirstSecretListing mixedDir.files = some "z_secret.yaml"
    ∧ ("a_secret.yml" : String) ≠ "z_secret.yaml" := by
  refine ⟨by decide, by decide, by decide⟩

/-- The head of a filtered list is its first satisfying element. -/
theorem head?_filter {α : Type} (p : α → Bool) (l : List α) :
    (l.filter p).head? = l.find? p := by
  induction l with
  | nil => rfl
  | cons a rest ih =>
    by_cases h : p a <;> simp [List.filter_cons, List.find?, h, ih]

/-- The head of an appended list prefers the left part. -/
theorem head?_append {α : Type} (l1 l2 : List α) :
    (l1 ++ l2).head? = (l1.head?).orElse fun _ => l2.head? := by
  cases l1 <;> rfl

/-- Searching a filtered list is searching with the conjoined predicate. -/
theorem find?_filter_and {α : Type} (p q : α → Bool) (l : List α) :
    (l.filter p).find? q = l.find? fun a => p a && q a := by
  induction l with
  | nil => rfl
  | cons a rest ih =>
    by_cases hp : p a
    · by_cases hq : q a <;> simp [List.filter_cons, List.find?, hp, hq, ih]
    · simp [List.filter_cons, List.find?, hp, ih]

/-- The subdirectory loop is a `flatMap` over the non-hidden children. -/
theorem scanSubdirs_eq_flatMap (l : List Dir) (depth : Nat) :
    scanSubdirs l depth =
      l.flatMap fun c =>
        if ".".data.isPrefixOf c.name.data then [] else scanDir c (depth + 1) := by
  induction l with
  | nil => rfl
  | cons c rest ih => rw [scanSubdirs, ih, List.flatMap_cons]

/-- C8 (amended): at every directory within the depth bound, the scan emits
the local unit of `specLocalUnits` — first eligible registry (`*.json` with
`enaas` in its lowered name); first `*_secret.yml` in listing order, else
first `*_secret.yaml` (so `.yml` beats `.yaml` regardless of listing order),
and the analogous descriptor choice; only a warning and no unit when no
secret candidate exists — followed by the units of every non-hidden
subdirectory: forming a unit does not prevent descending. -/
theorem scanDir_local_units_spec (d : Dir) (depth : Nat) (h : depth ≤ 10) :
    scanDir d depth =
      specLocalUnits d.files
        ++ d.subdirs.flatMap fun c =>
          if ".".data.isPrefixOf c.name.data then [] else scanDir c (depth + 1) := by
  obtain ⟨name, files, subdirs⟩ := d
  rw [scanDir]
  rw [if_neg (by omega)]
  rw [scanSubdirs_eq_flatMap]
  show _ ++ _ = specLocalUnits files ++ _
  congr 1
  rw [specLocalUnits, find?_filter_and]
  cases hfind : files.find? fun f => globMatch f ".json" && hasEnaas f with
  | none => rfl
  | some e =>
    rw [head?_append, head?_filter, head?_filter, head?_append, head?_filter,
      head?_filter]

/-- C8 witness: the amended decomposition applied at a concrete root whose
unit sits in a subdirectory. -/
theorem scanDir_local_units_spec_witness :
    scanDir rootDir 0 =
      specLocalUnits rootDir.files
        ++ rootDir.subdirs.flatMap fun c =>
          if ".".data.isPrefixOf c.name.data then [] else scanDir c 1 :=
  scanDir_local_units_spec rootDir 0 (by decide)
